import Mathlib

/-!
Verification development for the FCApy concept-lattice core.

The Python implementation of the core (`fcapy.context.FormalContext`,
`fcapy.algorithms.concept_construction`, `fcapy.algorithms.lattice_construction`,
`fcapy.poset.POSet`, `fcapy.lattice.ConceptLattice`) is not part of the
available sources: only its documentation stubs, READMEs and the Sphinx
search index are.  Every definition below is therefore modelled from the
specification text, faithful to its words, and the properties are settled
against those models.
-/

namespace FCApy

/-- Modelled from the spec: the bit-vector incidence table of a formal context
`K = (G, M, I)`.  The spec stores one bit-vector per attribute plus the
transposed per-object view, with the invariant that both views always
represent the same binary relation; we model that shared relation directly
as its characteristic function `incidence`, together with the sizes of the
object and attribute universes.  Objects are the indices `0 .. nObjs - 1`,
attributes the indices `0 .. nAttrs - 1`. -/
structure FormalContext where
  nObjs : Nat
  nAttrs : Nat
  incidence : Nat → Nat → Bool

/-- Modelled from the spec: `extension_i(attribute-index-set)` is the
AND of the bit-vectors of the given attributes — the set of objects having
every attribute of `S` (the full object set when `S` is empty, the identity
element of AND being all-ones). -/
def extension_i (K : FormalContext) (S : Finset Nat) : Finset Nat :=
  (Finset.range K.nObjs).filter (fun g => ∀ m ∈ S, K.incidence g m)

/-- Modelled from the spec: `intention_i(object-index-set)` is the set of
attributes whose bit-vector has all given object bits set, computed via the
transposed view — the set of attributes shared by every object of `A`. -/
def intention_i (K : FormalContext) (A : Finset Nat) : Finset Nat :=
  (Finset.range K.nAttrs).filter (fun m => ∀ g ∈ A, K.incidence g m)

/-- The intent-closure operator: the round trip
`intention_i (extension_i S)` of the Galois connection. -/
def intentClosure (K : FormalContext) (S : Finset Nat) : Finset Nat :=
  intention_i K (extension_i K S)

/-- Modelled from the spec: index-validity check and error behaviour of
`extension_i` — attribute indices out of range raise an indexing error,
modelled by `none`; valid input returns the computed extension. -/
def extension_i_checked (K : FormalContext) (S : Finset Nat) :
    Option (Finset Nat) :=
  if S ⊆ Finset.range K.nAttrs then some (extension_i K S) else none

/-- Modelled from the spec: index-validity check and error behaviour of
`intention_i` — object indices out of range raise an indexing error,
modelled by `none`; valid input returns the computed intention. -/
def intention_i_checked (K : FormalContext) (A : Finset Nat) :
    Option (Finset Nat) :=
  if A ⊆ Finset.range K.nObjs then some (intention_i K A) else none

/-- Closed attribute sets: the fixed points of the closure round trip. -/
def isClosedIntent (K : FormalContext) (B : Finset Nat) : Prop :=
  intentClosure K B = B

instance (K : FormalContext) (B : Finset Nat) :
    Decidable (isClosedIntent K B) := by
  unfold isClosedIntent; infer_instance

/-- Modelled from the spec: a formal concept is a pair of an extent
(object-index set) and an intent (attribute-index set); equality is
componentwise (and, for valid concepts, determined by the extent). -/
structure FormalConcept where
  extent_i : Finset Nat
  intent_i : Finset Nat
deriving DecidableEq

/-- Modelled from the spec: the concept validity (closure) invariant —
`intention(extent) == intent` and `extension(intent) == extent`, both
directions simultaneously. -/
def isFormalConcept (K : FormalContext) (c : FormalConcept) : Prop :=
  extension_i K c.intent_i = c.extent_i ∧
    intention_i K c.extent_i = c.intent_i

/-- Modelled from the spec: the support of a concept is the size of its
extent. -/
def FormalConcept.support (c : FormalConcept) : Nat := c.extent_i.card

/-- Modelled from the spec: the branch loop of Close-by-One.
`cboBranches K fuel B` explores, depth first, the extensions of the
current closed intent `B` by each attribute `y = nAttrs - fuel, …,
nAttrs - 1` not yet in `B` and lexicographically after the last attribute
added; a branch is kept only when the closure `D` of `B ∪ {y}` passes the
canonical-generator test: `D` agrees with `B` on all attributes below `y`.
Accepted closures are emitted and recursed into. -/
def cboBranches (K : FormalContext) : Nat → Finset Nat → List (Finset Nat)
  | 0, _ => []
  | fuel + 1, B =>
      (let y := K.nAttrs - (fuel + 1)
       if y ∈ B then []
       else
         let D := intentClosure K (insert y B)
         if D.filter (· < y) = B.filter (· < y) then
           D :: cboBranches K fuel D
         else []) ++ cboBranches K fuel B

/-- Modelled from the spec: the intents enumerated by Close-by-One —
start from the closure of the empty attribute set (the top concept's
intent) and explore every canonical branch. -/
def cboIntents (K : FormalContext) : List (Finset Nat) :=
  intentClosure K ∅ :: cboBranches K K.nAttrs (intentClosure K ∅)

/-- Modelled from the spec: `close_by_one` returns the mined concepts,
each closed intent paired with its extent. -/
def close_by_one (K : FormalContext) : List FormalConcept :=
  (cboIntents K).map (fun B => ⟨extension_i K B, B⟩)

/-- Modelled from the spec: the brute-force baseline — the set of distinct
closed extents obtained by closing every subset of the attribute
universe. -/
def bruteForceExtents (K : FormalContext) : Finset (Finset Nat) :=
  (Finset.range K.nAttrs).powerset.image (fun S => extension_i K S)

/-- The collection of all closed intents of a context, as a finite set. -/
def closedIntents (K : FormalContext) : Finset (Finset Nat) :=
  (Finset.range K.nAttrs).powerset.filter (fun B => isClosedIntent K B)

/-- Modelled from the spec: the rows of the concrete 5-object, 4-attribute
animal-movement table (objects dove, hen, duck, goose, owl; attributes
fly, hunt, run, swim) — dove flies; hen does nothing; duck and goose fly
and swim; owl flies and hunts (7 crosses in all). -/
def animalRows : List (List Bool) :=
  [[true, false, false, false],
   [false, false, false, false],
   [true, false, false, true],
   [true, false, false, true],
   [true, true, false, false]]

/-- The animal-movement formal context built from `animalRows`. -/
def animalCtx : FormalContext :=
  ⟨5, 4, fun g m => (animalRows.getD g []).getD m false⟩

/-- A two-object, two-attribute diagonal context used as a concrete
witness input. -/
def diagCtx : FormalContext := ⟨2, 2, fun g m => g == m⟩

/-- The extent of the concept at position `i` of a concept list (the
empty set for an out-of-range position). -/
def extentAt (cs : List FormalConcept) (i : Nat) : Finset Nat :=
  (cs.getD i ⟨∅, ∅⟩).extent_i

/-- Modelled from the spec: the candidate-parent search of the lattice
builder for the concept at position `i` — the positions `j` whose concept
strictly subsumes concept `i` (strictly larger extent) with no concept
strictly in between; these are exactly the direct covers recorded for
`i`. -/
def directSupersOf (cs : List FormalConcept) (i : Nat) : List Nat :=
  (List.range cs.length).filter (fun j =>
    decide (extentAt cs i ⊂ extentAt cs j ∧
      ¬ ∃ k ∈ Finset.range cs.length,
          extentAt cs i ⊂ extentAt cs k ∧ extentAt cs k ⊂ extentAt cs j))

/-- Modelled from the spec: the complete-pairwise lattice-construction
strategy — compare every pair of concepts directly by the subsumption
predicate and derive covers by removing non-minimal relations; returns,
for each concept position, the list of its direct-parent positions. -/
def complete_comparison (cs : List FormalConcept) : List (List Nat) :=
  (List.range cs.length).map (fun i => directSupersOf cs i)

/-- Modelled from the spec: transposing the parents hierarchy into the
children hierarchy — `i` is a child of `j` exactly when `j` is a parent
of `i`. -/
def transpose_hierarchy (d : List (List Nat)) : List (List Nat) :=
  (List.range d.length).map (fun j =>
    (List.range d.length).filter (fun i => j ∈ d.getD i []))

/-- The covering-relation edge `j` is a direct parent of `i`, as recorded
by the lattice builder. -/
def covEdge (cs : List FormalConcept) (i j : Nat) : Prop :=
  j ∈ (complete_comparison cs).getD i []

instance (cs : List FormalConcept) (i j : Nat) :
    Decidable (covEdge cs i j) := by
  unfold covEdge; infer_instance

/-- The four order-theoretic guarantees of the produced covering
relation: soundness (no concept strictly between the ends of an edge),
completeness (every strict subsumption is connected by a path of direct
edges), parent/child transposition consistency, and acyclicity. -/
def coveringIsTransitiveReduction (cs : List FormalConcept) : Prop :=
  (∀ i j, covEdge cs i j →
      i < cs.length ∧ j < cs.length ∧ extentAt cs i ⊂ extentAt cs j ∧
        ¬ ∃ k < cs.length, extentAt cs i ⊂ extentAt cs k ∧
            extentAt cs k ⊂ extentAt cs j) ∧
    (∀ i j, i < cs.length → j < cs.length →
      extentAt cs i ⊂ extentAt cs j → Relation.TransGen (covEdge cs) i j) ∧
    (∀ i j, i < cs.length → j < cs.length →
      (covEdge cs i j ↔
        i ∈ (transpose_hierarchy (complete_comparison cs)).getD j [])) ∧
    (∀ i, ¬ Relation.TransGen (covEdge cs) i i)

/-- Chunking of a work-item list into contiguous pieces of length `size`;
`fuel` bounds the recursion depth. -/
def chunksOfAux (size : Nat) : Nat → List Nat → List (List Nat)
  | 0, _ => []
  | _, [] => []
  | fuel + 1, l => l.take size :: chunksOfAux size fuel (l.drop size)

/-- Chunking of a work-item list into contiguous pieces of length
`size`. -/
def chunksOf (size : Nat) (l : List Nat) : List (List Nat) :=
  chunksOfAux size l.length l

/-- Modelled from the spec: the covering edges discovered by one worker
for its chunk of concept positions — parent selection for one concept
never mutates another concept's record, so each item is an independent
pure search. An edge `(i, j)` records `j` as a direct parent of `i`. -/
def workerEdges (cs : List FormalConcept) (chunk : List Nat) :
    List (Nat × Nat) :=
  chunk.flatMap (fun i => (directSupersOf cs i).map (fun j => (i, j)))

/-- Modelled from the spec: the parallel lattice-builder edge
construction — the candidate-parent searches are partitioned into `w`
contiguous chunks of work items, each chunk is handed to one worker of
the pool, and the workers' discovered edge lists are merged after a
blocking join. -/
def construct_lattice_edges_parallel (cs : List FormalConcept) (w : Nat) :
    List (Nat × Nat) :=
  ((chunksOf ((cs.length + w - 1) / w) (List.range cs.length)).map
    (fun chunk => workerEdges cs chunk)).flatten

/-- Modelled from the spec: the order used by `sort_concepts` — a concept
precedes another when it is at least as general, measured by extent
size. -/
def conceptSizeGE (c d : FormalConcept) : Prop :=
  d.extent_i.card ≤ c.extent_i.card

instance : DecidableRel conceptSizeGE := fun c d => by
  unfold conceptSizeGE; infer_instance

instance : IsTotal FormalConcept conceptSizeGE :=
  ⟨fun c d => Nat.le_total d.extent_i.card c.extent_i.card⟩

instance : IsTrans FormalConcept conceptSizeGE :=
  ⟨fun _ _ _ hab hbc => Nat.le_trans hbc hab⟩

/-- Modelled from the spec: `ConceptLattice.sort_concepts` — order the
mined concepts from the most general (largest extent) down to the most
specific. -/
def sort_concepts (cs : List FormalConcept) : List FormalConcept :=
  cs.insertionSort conceptSizeGE

/-- Modelled from the spec: a concept lattice — an ordered sequence of
concepts (indices are stable identifiers) together with the covering
relation listing each concept's direct parents. -/
structure ConceptLattice where
  concepts : List FormalConcept
  superconcepts_dict : List (List Nat)

/-- Modelled from the spec: `ConceptLattice.from_context` — mine the
concepts of the context with Close-by-One, order them with
`sort_concepts`, and record the covering relation. -/
def ConceptLattice.from_context (K : FormalContext) : ConceptLattice :=
  ⟨sort_concepts (close_by_one K),
    complete_comparison (sort_concepts (close_by_one K))⟩

/-- Modelled from the spec: the index of the top (most general) concept —
the first concept whose extent contains every concept's extent. -/
def ConceptLattice.top (L : ConceptLattice) : Nat :=
  L.concepts.findIdx
    (fun c => decide (∀ d ∈ L.concepts, d.extent_i ⊆ c.extent_i))

/-- Modelled from the spec: the index of the bottom (most specific)
concept — the first concept whose extent is contained in every concept's
extent. -/
def ConceptLattice.bottom (L : ConceptLattice) : Nat :=
  L.concepts.findIdx
    (fun c => decide (∀ d ∈ L.concepts, c.extent_i ⊆ d.extent_i))

/-- The most general concept of a context: all objects, with the
attributes common to all of them. -/
def topConceptOf (K : FormalContext) : FormalConcept :=
  ⟨Finset.range K.nObjs, intention_i K (Finset.range K.nObjs)⟩

/-- The most specific concept of a context: the objects having every
attribute, with the attributes common to them. -/
def bottomConceptOf (K : FormalContext) : FormalConcept :=
  ⟨extension_i K (Finset.range K.nAttrs),
    intention_i K (extension_i K (Finset.range K.nAttrs))⟩

/-- Modelled from the spec: the POSet container — an ordered sequence of
elements (indices are stable identifiers), a caller-supplied `≤`
predicate, and a lazily filled cache of super-element index sets
(`none` marks an uncached entry). -/
structure POSet (α : Type) where
  elements : List α
  leq_func : α → α → Bool
  super_cache : List (Option (List Nat))

/-- The element stored at index `i` of a POSet. -/
def POSet.el [Inhabited α] (P : POSet α) (i : Nat) : α :=
  P.elements.getD i default

/-- The stable index of an element of a POSet. -/
def POSet.index [BEq α] (P : POSet α) (x : α) : Nat :=
  P.elements.findIdx (fun y => y == x)

/-- Modelled from the spec: the uncached computation behind
`super_elements(e)` — a sweep over all elements comparable to `e`,
collecting every element `x` with `e ≤ x`. -/
def POSet.super_elements_compute [Inhabited α] (P : POSet α) (i : Nat) :
    List Nat :=
  (List.range P.elements.length).filter (fun j => P.leq_func (P.el i) (P.el j))

/-- Modelled from the spec: `super_elements(e)` returns the cached set if
present and otherwise computes it. -/
def POSet.super_elements [Inhabited α] (P : POSet α) (i : Nat) : List Nat :=
  match P.super_cache.getD i none with
  | some v => v
  | none => P.super_elements_compute i

/-- Modelled from the spec: `fill_up_superelements_cache` forces the
cache fill, computing and storing the super-element set of every
element. -/
def POSet.fill_up_superelements_cache [Inhabited α] (P : POSet α) :
    POSet α :=
  ⟨P.elements, P.leq_func,
    (List.range P.elements.length).map
      (fun i => some (P.super_elements_compute i))⟩

/-- Modelled from the spec: `direct_super_elements(e)` is derived from
the full super set by the transitive-reduction step — drop `e` itself and
keep only the minimal elements of the related set. -/
def POSet.direct_super_elements [Inhabited α] (P : POSet α) (i : Nat) :
    List Nat :=
  let sup := (P.super_elements i).filter (fun j => j ≠ i)
  sup.filter (fun j =>
    decide (∀ k ∈ sup, P.leq_func (P.el k) (P.el j) → k = j))

/-- The divisibility poset on the integers 1..20, ordered by `divides`. -/
def divisPoset : POSet Nat :=
  ⟨(List.range 20).map (· + 1), fun a b => decide (a ∣ b), []⟩

section Galois

variable (K : FormalContext)

lemma extension_i_subset_range (S : Finset Nat) :
    extension_i K S ⊆ Finset.range K.nObjs := Finset.filter_subset _ _

lemma intention_i_subset_range (A : Finset Nat) :
    intention_i K A ⊆ Finset.range K.nAttrs := Finset.filter_subset _ _

lemma mem_extension_i {S : Finset Nat} {g : Nat} :
    g ∈ extension_i K S ↔ g < K.nObjs ∧ ∀ m ∈ S, K.incidence g m := by
  simp [extension_i, Finset.mem_filter, Finset.mem_range]

lemma mem_intention_i {A : Finset Nat} {m : Nat} :
    m ∈ intention_i K A ↔ m < K.nAttrs ∧ ∀ g ∈ A, K.incidence g m := by
  simp [intention_i, Finset.mem_filter, Finset.mem_range]

lemma extension_i_antitone' {S₁ S₂ : Finset Nat} (h : S₁ ⊆ S₂) :
    extension_i K S₂ ⊆ extension_i K S₁ := by
  intro g hg
  rw [mem_extension_i] at hg ⊢
  exact ⟨hg.1, fun m hm => hg.2 m (h hm)⟩

lemma intention_i_antitone' {A₁ A₂ : Finset Nat} (h : A₁ ⊆ A₂) :
    intention_i K A₂ ⊆ intention_i K A₁ := by
  intro m hm
  rw [mem_intention_i] at hm ⊢
  exact ⟨hm.1, fun g hg => hm.2 g (h hg)⟩

/-- Extensivity of the closure on valid attribute sets. -/
lemma subset_intentClosure {S : Finset Nat} (h : S ⊆ Finset.range K.nAttrs) :
    S ⊆ intentClosure K S := by
  intro m hm
  rw [intentClosure, mem_intention_i]
  refine ⟨Finset.mem_range.mp (h hm), fun g hg => ?_⟩
  exact ((mem_extension_i K).mp hg).2 m hm

/-- The extension of a set is contained in the extension of its closure. -/
lemma extension_i_subset_extension_intentClosure (S : Finset Nat) :
    extension_i K S ⊆ extension_i K (intentClosure K S) := by
  intro g hg
  rw [mem_extension_i]
  refine ⟨Finset.mem_range.mp (extension_i_subset_range K S hg), ?_⟩
  intro m hm
  exact ((mem_intention_i K).mp hm).2 g hg

/-- The fundamental fixed-point equality:
`extension_i (intentClosure S) = extension_i S` for every in-range `S`. -/
lemma extension_i_intentClosure {S : Finset Nat}
    (hS : S ⊆ Finset.range K.nAttrs) :
    extension_i K (intentClosure K S) = extension_i K S := by
  apply Finset.Subset.antisymm
  · exact extension_i_antitone' K (subset_intentClosure K hS)
  · exact extension_i_subset_extension_intentClosure K S

/-- Idempotence of the closure round trip, for every attribute set (also
ones holding out-of-range indices: the first round trip lands in range). -/
lemma intentClosure_intentClosure (S : Finset Nat) :
    intentClosure K (intentClosure K S) = intentClosure K S := by
  apply Finset.Subset.antisymm
  · -- `ext S ⊆ ext (closure S)` and `int` is antitone
    exact intention_i_antitone' K
      (extension_i_subset_extension_intentClosure K S)
  · exact subset_intentClosure K (intention_i_subset_range K _)

lemma isClosedIntent_intentClosure (S : Finset Nat) :
    isClosedIntent K (intentClosure K S) :=
  intentClosure_intentClosure K S

lemma isClosedIntent.subset_range {K : FormalContext} {B : Finset Nat}
    (h : isClosedIntent K B) : B ⊆ Finset.range K.nAttrs := by
  rw [← h]; exact intention_i_subset_range K _

/-- Monotone bound: a closed set above `S` is above the closure of `S`. -/
lemma intentClosure_subset_of_closed {K : FormalContext} {S B : Finset Nat}
    (hSB : S ⊆ B) (hB : isClosedIntent K B) :
    intentClosure K S ⊆ B := by
  rw [← hB]
  exact intention_i_antitone' K (extension_i_antitone' K hSB)

end Galois

section CboLemmas

variable (K : FormalContext)

lemma mem_filter_lt_succ {S : Finset Nat} {y m : Nat} :
    m ∈ S.filter (· < y + 1) ↔ m ∈ S.filter (· < y) ∨ (m = y ∧ y ∈ S) := by
  simp only [Finset.mem_filter, Nat.lt_succ_iff_lt_or_eq]
  constructor
  · rintro ⟨hm, hlt | heq⟩
    · exact Or.inl ⟨hm, hlt⟩
    · exact Or.inr ⟨heq, heq ▸ hm⟩
  · rintro (⟨hm, hlt⟩ | ⟨heq, hy⟩)
    · exact ⟨hm, Or.inl hlt⟩
    · exact ⟨heq ▸ hy, Or.inr heq⟩

lemma filter_lt_succ_eq_of {S T : Finset Nat} {y : Nat}
    (h : S.filter (· < y) = T.filter (· < y)) (hy : y ∈ S ↔ y ∈ T) :
    S.filter (· < y + 1) = T.filter (· < y + 1) := by
  ext m
  rw [mem_filter_lt_succ, mem_filter_lt_succ, h, hy]

lemma filter_lt_of_filter_lt_succ {S T : Finset Nat} {y : Nat}
    (h : S.filter (· < y + 1) = T.filter (· < y + 1)) :
    S.filter (· < y) = T.filter (· < y) := by
  have hS : S.filter (· < y) = (S.filter (· < y + 1)).filter (· < y) := by
    rw [Finset.filter_filter]
    exact Finset.filter_congr (fun m _ => by
      constructor
      · exact fun hm => ⟨Nat.lt_succ_of_lt hm, hm⟩
      · exact fun hm => hm.2)
  have hT : T.filter (· < y) = (T.filter (· < y + 1)).filter (· < y) := by
    rw [Finset.filter_filter]
    exact Finset.filter_congr (fun m _ => by
      constructor
      · exact fun hm => ⟨Nat.lt_succ_of_lt hm, hm⟩
      · exact fun hm => hm.2)
  rw [hS, hT, h]

lemma mem_of_filter_lt_eq {S T : Finset Nat} {y m : Nat}
    (h : S.filter (· < y) = T.filter (· < y)) (hm : m ∈ S) (hlt : m < y) :
    m ∈ T := by
  have : m ∈ T.filter (· < y) := by
    rw [← h]; exact Finset.mem_filter.mpr ⟨hm, hlt⟩
  exact (Finset.mem_filter.mp this).1

lemma filter_lt_self_of_closed {B : Finset Nat} (hB : isClosedIntent K B) :
    B.filter (· < K.nAttrs) = B :=
  Finset.filter_true_of_mem
    (fun _ hm => Finset.mem_range.mp (hB.subset_range hm))

/-- The Close-by-One branch enumeration is sound and complete: starting
from a closed intent `B` with `fuel` attributes left to try, the branches
output exactly the closed intents strictly above `B` that agree with `B`
on all attributes below `nAttrs - fuel`. -/
lemma mem_cboBranches :
    ∀ (fuel : Nat) (B : Finset Nat), fuel ≤ K.nAttrs →
      isClosedIntent K B →
      ∀ D, D ∈ cboBranches K fuel B ↔
        (isClosedIntent K D ∧ B ⊂ D ∧
          D.filter (· < K.nAttrs - fuel) = B.filter (· < K.nAttrs - fuel)) := by
  intro fuel
  induction fuel with
  | zero =>
      intro B _ hB D
      simp only [cboBranches, List.not_mem_nil, false_iff, Nat.sub_zero]
      rintro ⟨hD, hBD, hfil⟩
      rw [filter_lt_self_of_closed K hD, filter_lt_self_of_closed K hB] at hfil
      exact absurd hfil (Finset.ssubset_iff_subset_ne.mp hBD).2.symm
  | succ fuel ih =>
      intro B hfuel hB D
      have hfuel' : fuel ≤ K.nAttrs := Nat.le_of_succ_le hfuel
      set y := K.nAttrs - (fuel + 1) with hy
      have hysucc : K.nAttrs - fuel = y + 1 := by omega
      have hylt : y < K.nAttrs := by omega
      rw [cboBranches, List.mem_append, ih B hfuel' hB D, hysucc]
      by_cases hyB : y ∈ B
      · -- the branch at `y` is skipped; everything comes from the tail
        simp only [← hy, hyB, if_true, List.not_mem_nil, false_or]
        constructor
        · rintro ⟨hD, hBD, hfil⟩
          exact ⟨hD, hBD, filter_lt_of_filter_lt_succ hfil⟩
        · rintro ⟨hD, hBD, hfil⟩
          refine ⟨hD, hBD, filter_lt_succ_eq_of hfil ?_⟩
          exact ⟨fun _ => hyB, fun _ => hBD.1 hyB⟩
      · simp only [← hy, hyB, if_false]
        set Dy := intentClosure K (insert y B) with hDyDef
        have hDyclosed : isClosedIntent K Dy := isClosedIntent_intentClosure K _
        have hsubDy : insert y B ⊆ Dy :=
          subset_intentClosure K
            (Finset.insert_subset (Finset.mem_range.mpr hylt) hB.subset_range)
        have hyDy : y ∈ Dy := hsubDy (Finset.mem_insert_self y B)
        have hBDy : B ⊆ Dy := fun m hm => hsubDy (Finset.mem_insert_of_mem hm)
        have hBssDy : B ⊂ Dy :=
          (Finset.ssubset_iff_of_subset hBDy).mpr ⟨y, hyDy, hyB⟩
        -- canonicity is forced whenever a closed `D` above `B` agreeing with
        -- `B` below `y` contains `y`
        have hforced : ∀ {D' : Finset Nat}, isClosedIntent K D' → B ⊆ D' →
            D'.filter (· < y) = B.filter (· < y) → y ∈ D' →
            Dy.filter (· < y) = B.filter (· < y) ∧ Dy ⊆ D' := by
          intro D' hD' hBD' hfil' hyD'
          have hDyD' : Dy ⊆ D' :=
            intentClosure_subset_of_closed (Finset.insert_subset hyD' hBD') hD'
          refine ⟨Finset.Subset.antisymm ?_ ?_, hDyD'⟩
          · intro m hm
            have hmDy := Finset.mem_filter.mp hm
            rw [← hfil']
            exact Finset.mem_filter.mpr ⟨hDyD' hmDy.1, hmDy.2⟩
          · exact Finset.filter_subset_filter _ hBDy
        by_cases hcan : Dy.filter (· < y) = B.filter (· < y)
        · -- canonical branch taken
          simp only [hcan, if_true, List.mem_cons]
          rw [ih Dy hfuel' hDyclosed D, hysucc]
          have hDyfil : Dy.filter (· < y + 1) = insert y (B.filter (· < y)) := by
            ext m
            rw [mem_filter_lt_succ, hcan, Finset.mem_insert]
            constructor
            · rintro (hm | ⟨rfl, _⟩)
              · exact Or.inr hm
              · exact Or.inl rfl
            · rintro (rfl | hm)
              · exact Or.inr ⟨rfl, hyDy⟩
              · exact Or.inl hm
          constructor
          · rintro ((rfl | ⟨hD, hDyD, hfil⟩) | ⟨hD, hBD, hfil⟩)
            · exact ⟨hDyclosed, hBssDy, hcan⟩
            · refine ⟨hD, lt_of_lt_of_le hBssDy hDyD.subset, ?_⟩
              calc D.filter (· < y)
                  = Dy.filter (· < y) := filter_lt_of_filter_lt_succ hfil
                _ = B.filter (· < y) := hcan
            · exact ⟨hD, hBD, filter_lt_of_filter_lt_succ hfil⟩
          · rintro ⟨hD, hBD, hfil⟩
            by_cases hyD : y ∈ D
            · obtain ⟨_, hDyD⟩ := hforced hD hBD.subset hfil hyD
              rcases eq_or_lt_of_le (α := Finset Nat) hDyD with heq | hlt
              · exact Or.inl (Or.inl heq.symm)
              · refine Or.inl (Or.inr ⟨hD, hlt, ?_⟩)
                refine filter_lt_succ_eq_of ?_ ⟨fun _ => hyDy, fun _ => hyD⟩
                rw [hfil, hcan]
            · refine Or.inr ⟨hD, hBD, filter_lt_succ_eq_of hfil ?_⟩
              exact ⟨fun h => absurd h hyD, fun h => absurd h hyB⟩
        · -- non-canonical branch pruned
          simp only [hcan, if_false, List.not_mem_nil, false_or]
          constructor
          · rintro ⟨hD, hBD, hfil⟩
            exact ⟨hD, hBD, filter_lt_of_filter_lt_succ hfil⟩
          · rintro ⟨hD, hBD, hfil⟩
            by_cases hyD : y ∈ D
            · exact absurd (hforced hD hBD.subset hfil hyD).1 hcan
            · refine ⟨hD, hBD, filter_lt_succ_eq_of hfil ?_⟩
              exact ⟨fun h => absurd h hyD, fun h => absurd h hyB⟩

lemma nodup_cboBranches :
    ∀ (fuel : Nat) (B : Finset Nat), fuel ≤ K.nAttrs →
      isClosedIntent K B → (cboBranches K fuel B).Nodup := by
  intro fuel
  induction fuel with
  | zero => intro B _ _; simp [cboBranches]
  | succ fuel ih =>
      intro B hfuel hB
      have hfuel' : fuel ≤ K.nAttrs := Nat.le_of_succ_le hfuel
      set y := K.nAttrs - (fuel + 1) with hy
      have hysucc : K.nAttrs - fuel = y + 1 := by omega
      have hylt : y < K.nAttrs := by omega
      rw [cboBranches, List.nodup_append]
      by_cases hyB : y ∈ B
      · simp only [← hy, hyB, if_true]
        exact ⟨List.nodup_nil, ih B hfuel' hB, by simp [List.Disjoint]⟩
      · simp only [← hy, hyB, if_false]
        set Dy := intentClosure K (insert y B) with hDyDef
        have hDyclosed : isClosedIntent K Dy := isClosedIntent_intentClosure K _
        have hsubDy : insert y B ⊆ Dy :=
          subset_intentClosure K
            (Finset.insert_subset (Finset.mem_range.mpr hylt) hB.subset_range)
        have hyDy : y ∈ Dy := hsubDy (Finset.mem_insert_self y B)
        by_cases hcan : Dy.filter (· < y) = B.filter (· < y)
        · simp only [hcan, if_true]
          refine ⟨List.Nodup.cons ?_ (ih Dy hfuel' hDyclosed), ih B hfuel' hB, ?_⟩
          · intro hmem
            have := ((mem_cboBranches K fuel Dy hfuel' hDyclosed Dy).mp hmem).2.1
            exact absurd rfl (Finset.ssubset_iff_subset_ne.mp this).2
          · -- every branch output holds `y`; every tail output misses it
            intro D hDbr hDtl
            have hyD : y ∈ D := by
              rcases List.mem_cons.mp hDbr with rfl | hDbr'
              · exact hyDy
              · exact ((mem_cboBranches K fuel Dy hfuel' hDyclosed D).mp
                  hDbr').2.1.subset hyDy
            have htl := (mem_cboBranches K fuel B hfuel' hB D).mp hDtl
            have : y ∈ B := by
              have hyfil : y ∈ D.filter (· < K.nAttrs - fuel) := by
                rw [hysucc]
                exact Finset.mem_filter.mpr ⟨hyD, Nat.lt_succ_self y⟩
              rw [htl.2.2] at hyfil
              exact (Finset.mem_filter.mp hyfil).1
            exact hyB this
        · simp only [hcan, if_false]
          exact ⟨List.nodup_nil, ih B hfuel' hB, by simp [List.Disjoint]⟩

lemma filter_lt_zero (S : Finset Nat) : S.filter (· < 0) = ∅ :=
  Finset.filter_false_of_mem (fun m _ => Nat.not_lt_zero m)

lemma isClosedIntent_empty_closure : isClosedIntent K (intentClosure K ∅) :=
  isClosedIntent_intentClosure K ∅

/-- The Close-by-One enumeration outputs exactly the closed intents of the
context. -/
lemma mem_cboIntents (D : Finset Nat) :
    D ∈ cboIntents K ↔ isClosedIntent K D := by
  rw [cboIntents, List.mem_cons]
  constructor
  · rintro (rfl | hmem)
    · exact isClosedIntent_empty_closure K
    · exact ((mem_cboBranches K K.nAttrs _ le_rfl
        (isClosedIntent_empty_closure K) D).mp hmem).1
  · intro hD
    by_cases heq : D = intentClosure K ∅
    · exact Or.inl heq
    · refine Or.inr ((mem_cboBranches K K.nAttrs _ le_rfl
        (isClosedIntent_empty_closure K) D).mpr ⟨hD, ?_, ?_⟩)
      · refine Finset.ssubset_iff_subset_ne.mpr
          ⟨intentClosure_subset_of_closed (Finset.empty_subset D) hD,
            fun h => heq h.symm⟩
      · simp [Nat.sub_self, filter_lt_zero]

/-- Close-by-One never visits the same closed intent twice. -/
lemma nodup_cboIntents : (cboIntents K).Nodup := by
  rw [cboIntents]
  refine List.Nodup.cons ?_
    (nodup_cboBranches K K.nAttrs _ le_rfl (isClosedIntent_empty_closure K))
  intro hmem
  have := ((mem_cboBranches K K.nAttrs _ le_rfl
    (isClosedIntent_empty_closure K) _).mp hmem).2.1
  exact absurd rfl (Finset.ssubset_iff_subset_ne.mp this).2

lemma cboIntents_toFinset : (cboIntents K).toFinset = closedIntents K := by
  ext D
  rw [List.mem_toFinset, mem_cboIntents, closedIntents, Finset.mem_filter,
    Finset.mem_powerset]
  exact ⟨fun h => ⟨h.subset_range, h⟩, fun h => h.2⟩

lemma cboIntents_length : (cboIntents K).length = (closedIntents K).card := by
  rw [← cboIntents_toFinset, List.toFinset_card_of_nodup (nodup_cboIntents K)]

/-- The extension operator is injective on closed intents. -/
lemma extension_i_injOn_closed {B₁ B₂ : Finset Nat}
    (h₁ : isClosedIntent K B₁) (h₂ : isClosedIntent K B₂)
    (h : extension_i K B₁ = extension_i K B₂) : B₁ = B₂ := by
  have : intentClosure K B₁ = intentClosure K B₂ := by
    rw [intentClosure, intentClosure, h]
  rwa [h₁, h₂] at this

lemma bruteForceExtents_eq_image_closed :
    bruteForceExtents K =
      (closedIntents K).image (fun B => extension_i K B) := by
  apply Finset.Subset.antisymm
  · intro E hE
    obtain ⟨S, hS, rfl⟩ := Finset.mem_image.mp hE
    rw [Finset.mem_powerset] at hS
    refine Finset.mem_image.mpr ⟨intentClosure K S, ?_, ?_⟩
    · rw [closedIntents, Finset.mem_filter, Finset.mem_powerset]
      exact ⟨intention_i_subset_range K _, isClosedIntent_intentClosure K S⟩
    · exact extension_i_intentClosure K hS
  · refine Finset.image_subset_image ?_
    intro B hB
    rw [closedIntents, Finset.mem_filter] at hB
    exact hB.1

/-- The concepts returned by Close-by-One are exactly the valid formal
concepts of the context. -/
lemma mem_close_by_one (c : FormalConcept) :
    c ∈ close_by_one K ↔ isFormalConcept K c := by
  rw [close_by_one, List.mem_map]
  constructor
  · rintro ⟨B, hB, rfl⟩
    exact ⟨rfl, (mem_cboIntents K B).mp hB⟩
  · rintro ⟨hext, hint⟩
    refine ⟨c.intent_i, (mem_cboIntents K c.intent_i).mpr ?_, ?_⟩
    · show intention_i K (extension_i K c.intent_i) = c.intent_i
      rw [hext, hint]
    · cases c
      simpa using hext

lemma card_bruteForceExtents :
    (bruteForceExtents K).card = (closedIntents K).card := by
  rw [bruteForceExtents_eq_image_closed]
  apply Finset.card_image_of_injOn
  intro B₁ h₁ B₂ h₂ h
  rw [Finset.mem_coe, closedIntents, Finset.mem_filter] at h₁ h₂
  exact extension_i_injOn_closed K h₁.2 h₂.2 h

/-- The emitted concepts have pairwise-distinct extents. -/
lemma close_by_one_map_extent_nodup :
    ((close_by_one K).map FormalConcept.extent_i).Nodup := by
  rw [close_by_one, List.map_map]
  have hmap : (FormalConcept.extent_i ∘ fun B => FormalConcept.mk
      (extension_i K B) B) = fun B => extension_i K B := rfl
  rw [hmap]
  refine List.Nodup.map_on ?_ (nodup_cboIntents K)
  intro B₁ h₁ B₂ h₂ h
  exact extension_i_injOn_closed K ((mem_cboIntents K B₁).mp h₁)
    ((mem_cboIntents K B₂).mp h₂) h

lemma close_by_one_nodup : (close_by_one K).Nodup :=
  (close_by_one_map_extent_nodup K).of_map

lemma close_by_one_ne_nil : close_by_one K ≠ [] := by
  rw [close_by_one, cboIntents]
  simp

end CboLemmas

section LatticeLemmas

lemma complete_comparison_getD (cs : List FormalConcept) (i : Nat) :
    (complete_comparison cs).getD i [] =
      if i < cs.length then directSupersOf cs i else [] := by
  by_cases hi : i < cs.length
  · rw [if_pos hi, complete_comparison, List.getD_eq_getElem?_getD,
      List.getElem?_map, List.getElem?_range hi]
    rfl
  · rw [if_neg hi, List.getD_eq_getElem?_getD, List.getElem?_eq_none, Option.getD_none]
    rw [complete_comparison, List.length_map, List.length_range]
    exact Nat.le_of_not_lt hi

lemma covEdge_iff {cs : List FormalConcept} {i j : Nat} :
    covEdge cs i j ↔
      i < cs.length ∧ j < cs.length ∧ extentAt cs i ⊂ extentAt cs j ∧
        ¬ ∃ k < cs.length, extentAt cs i ⊂ extentAt cs k ∧
            extentAt cs k ⊂ extentAt cs j := by
  rw [covEdge, complete_comparison_getD]
  by_cases hi : i < cs.length
  · rw [if_pos hi, directSupersOf, List.mem_filter, List.mem_range,
      decide_eq_true_eq]
    constructor
    · rintro ⟨hj, hsub, hmid⟩
      refine ⟨hi, hj, hsub, fun ⟨k, hk, hik, hkj⟩ => hmid ?_⟩
      exact ⟨k, Finset.mem_range.mpr hk, hik, hkj⟩
    · rintro ⟨_, hj, hsub, hmid⟩
      refine ⟨hj, hsub, fun ⟨k, hk, hik, hkj⟩ => hmid ?_⟩
      exact ⟨k, Finset.mem_range.mp hk, hik, hkj⟩
  · rw [if_neg hi]
    simp only [List.not_mem_nil, false_iff]
    rintro ⟨hi', _⟩
    exact hi hi'

lemma covEdge_extent_ssubset {cs : List FormalConcept} {i j : Nat}
    (h : covEdge cs i j) : extentAt cs i ⊂ extentAt cs j :=
  (covEdge_iff.mp h).2.2.1

lemma transGen_covEdge_ssubset {cs : List FormalConcept} {i j : Nat}
    (h : Relation.TransGen (covEdge cs) i j) :
    extentAt cs i ⊂ extentAt cs j := by
  induction h with
  | single h => exact covEdge_extent_ssubset h
  | tail _ h ih => exact ih.trans (covEdge_extent_ssubset h)

/-- The strictly-between set used to measure progress when building a
covering path. -/
def middles (cs : List FormalConcept) (i j : Nat) : Finset Nat :=
  (Finset.range cs.length).filter
    (fun k => extentAt cs i ⊂ extentAt cs k ∧ extentAt cs k ⊂ extentAt cs j)

lemma covEdge_of_middles_empty {cs : List FormalConcept} {i j : Nat}
    (hi : i < cs.length) (hj : j < cs.length)
    (hij : extentAt cs i ⊂ extentAt cs j) (hmid : middles cs i j = ∅) :
    covEdge cs i j := by
  refine covEdge_iff.mpr ⟨hi, hj, hij, ?_⟩
  rintro ⟨k, hk, hik, hkj⟩
  have : k ∈ middles cs i j :=
    Finset.mem_filter.mpr ⟨Finset.mem_range.mpr hk, hik, hkj⟩
  rw [hmid] at this
  exact absurd this (Finset.not_mem_empty k)

lemma exists_cover_path (cs : List FormalConcept) :
    ∀ (n i j : Nat), i < cs.length → j < cs.length →
      (middles cs i j).card ≤ n → extentAt cs i ⊂ extentAt cs j →
      Relation.TransGen (covEdge cs) i j := by
  intro n
  induction n with
  | zero =>
      intro i j hi hj hcard hij
      exact Relation.TransGen.single (covEdge_of_middles_empty hi hj hij
        (Finset.card_eq_zero.mp (Nat.le_zero.mp hcard)))
  | succ n ih =>
      intro i j hi hj hcard hij
      rcases Finset.eq_empty_or_nonempty (middles cs i j) with hemp | ⟨k, hk⟩
      · exact Relation.TransGen.single (covEdge_of_middles_empty hi hj hij hemp)
      · obtain ⟨hkrange, hik, hkj⟩ := Finset.mem_filter.mp hk
        have hklen : k < cs.length := Finset.mem_range.mp hkrange
        have hsub1 : middles cs i k ⊆ (middles cs i j).erase k := by
          intro m hm
          obtain ⟨hmr, him, hmk⟩ := Finset.mem_filter.mp hm
          refine Finset.mem_erase.mpr ⟨?_, Finset.mem_filter.mpr
            ⟨hmr, him, hmk.trans hkj⟩⟩
          rintro rfl
          exact absurd rfl (Finset.ssubset_iff_subset_ne.mp hmk).2
        have hsub2 : middles cs k j ⊆ (middles cs i j).erase k := by
          intro m hm
          obtain ⟨hmr, hkm, hmj⟩ := Finset.mem_filter.mp hm
          refine Finset.mem_erase.mpr ⟨?_, Finset.mem_filter.mpr
            ⟨hmr, hik.trans hkm, hmj⟩⟩
          rintro rfl
          exact absurd rfl (Finset.ssubset_iff_subset_ne.mp hkm).2
        have hcard' : ((middles cs i j).erase k).card ≤ n := by
          have := Finset.card_erase_of_mem hk
          omega
        exact (ih i k hi hklen ((Finset.card_le_card hsub1).trans hcard') hik).trans
          (ih k j hklen hj ((Finset.card_le_card hsub2).trans hcard') hkj)

lemma transpose_hierarchy_getD (cs : List FormalConcept) (j : Nat)
    (hj : j < cs.length) :
    (transpose_hierarchy (complete_comparison cs)).getD j [] =
      (List.range cs.length).filter
        (fun i => j ∈ (complete_comparison cs).getD i []) := by
  have hlen : (complete_comparison cs).length = cs.length := by
    rw [complete_comparison, List.length_map, List.length_range]
  rw [transpose_hierarchy, hlen, List.getD_eq_getElem?_getD,
    List.getElem?_map, List.getElem?_range hj]
  rfl

lemma chunksOfAux_flatten {size : Nat} (hsize : 1 ≤ size) :
    ∀ (fuel : Nat) (l : List Nat), l.length ≤ fuel →
      (chunksOfAux size fuel l).flatten = l := by
  intro fuel
  induction fuel with
  | zero =>
      intro l hl
      rw [List.length_eq_zero.mp (Nat.le_zero.mp hl)]
      rfl
  | succ fuel ih =>
      intro l hl
      cases l with
      | nil => rfl
      | cons x xs =>
          have hdrop : ((x :: xs).drop size).length ≤ fuel := by
            rw [List.length_drop]
            simp only [List.length_cons] at hl ⊢
            omega
          rw [chunksOfAux, List.flatten_cons, ih _ hdrop, List.take_append_drop]
          exact fun h => List.cons_ne_nil x xs h

lemma chunks_map_workerEdges_flatten (cs : List FormalConcept) :
    ∀ chunks : List (List Nat),
      (chunks.map (fun c => workerEdges cs c)).flatten =
        workerEdges cs chunks.flatten := by
  intro chunks
  induction chunks with
  | nil => rfl
  | cons c cks ih =>
      rw [List.map_cons, List.flatten_cons, ih, List.flatten_cons,
        workerEdges, workerEdges, workerEdges, List.flatMap_append]

/-- Each worker count produces, after the merge, exactly the sequential
sweep over all parent-search work items. -/
lemma construct_lattice_edges_parallel_eq (cs : List FormalConcept)
    (w : Nat) (hw : 1 ≤ w) :
    construct_lattice_edges_parallel cs w =
      workerEdges cs (List.range cs.length) := by
  rw [construct_lattice_edges_parallel,
    chunks_map_workerEdges_flatten cs, chunksOf]
  rcases Nat.eq_zero_or_pos cs.length with hn | hn
  · rw [hn]
    rfl
  · have hsize : 1 ≤ (cs.length + w - 1) / w := by
      rw [Nat.le_div_iff_mul_le (Nat.lt_of_lt_of_le Nat.zero_lt_one hw)]
      omega
    rw [List.length_range, chunksOfAux_flatten hsize cs.length (List.range cs.length)
      (le_of_eq (List.length_range cs.length))]

end LatticeLemmas

section SortLemmas

variable (K : FormalContext)

lemma concept_extent_subset_range {c : FormalConcept}
    (h : isFormalConcept K c) : c.extent_i ⊆ Finset.range K.nObjs := by
  rw [← h.1]
  exact extension_i_subset_range K _

lemma concept_intent_subset_range {c : FormalConcept}
    (h : isFormalConcept K c) : c.intent_i ⊆ Finset.range K.nAttrs := by
  rw [← h.2]
  exact intention_i_subset_range K _

lemma concept_eq_of_extent_eq {c d : FormalConcept}
    (hc : isFormalConcept K c) (hd : isFormalConcept K d)
    (h : c.extent_i = d.extent_i) : c = d := by
  have hint : c.intent_i = d.intent_i := by
    rw [← hc.2, ← hd.2, h]
  cases c; cases d
  simp only at h hint
  rw [h, hint]

/-- Dual extensivity: a valid object set grows to the extension of its
intention. -/
lemma subset_extension_intention {A : Finset Nat}
    (hA : A ⊆ Finset.range K.nObjs) :
    A ⊆ extension_i K (intention_i K A) := by
  intro g hg
  rw [mem_extension_i]
  refine ⟨Finset.mem_range.mp (hA hg), fun m hm => ?_⟩
  exact ((mem_intention_i K).mp hm).2 g hg

lemma topConceptOf_isFormalConcept : isFormalConcept K (topConceptOf K) := by
  refine ⟨Finset.Subset.antisymm (extension_i_subset_range K _) ?_, rfl⟩
  exact subset_extension_intention K (Finset.Subset.refl _)

lemma bottomConceptOf_isFormalConcept :
    isFormalConcept K (bottomConceptOf K) := by
  exact ⟨extension_i_intentClosure K (Finset.Subset.refl _), rfl⟩

lemma bottomConceptOf_extent_subset {c : FormalConcept}
    (h : isFormalConcept K c) :
    (bottomConceptOf K).extent_i ⊆ c.extent_i := by
  rw [← h.1]
  exact extension_i_antitone' K (concept_intent_subset_range K h)

lemma sort_concepts_perm (cs : List FormalConcept) :
    List.Perm (sort_concepts cs) cs :=
  List.perm_insertionSort conceptSizeGE cs

lemma sort_concepts_sorted (cs : List FormalConcept) :
    List.Sorted conceptSizeGE (sort_concepts cs) :=
  List.sorted_insertionSort conceptSizeGE cs

lemma mem_sort_close_by_one {c : FormalConcept} :
    c ∈ sort_concepts (close_by_one K) ↔ isFormalConcept K c := by
  rw [(sort_concepts_perm (close_by_one K)).mem_iff, mem_close_by_one]

lemma sort_close_by_one_ne_nil : sort_concepts (close_by_one K) ≠ [] := by
  intro h
  have hlen := (sort_concepts_perm (close_by_one K)).length_eq
  rw [h] at hlen
  exact close_by_one_ne_nil K (List.length_eq_zero.mp hlen.symm)

/-- The head of the sorted concept list is the top concept: its extent
is the full object set. -/
lemma sorted_head_extent {h : FormalConcept} {t : List FormalConcept}
    (heq : sort_concepts (close_by_one K) = h :: t) :
    h.extent_i = Finset.range K.nObjs := by
  have hmemh : isFormalConcept K h :=
    (mem_sort_close_by_one K).mp (heq ▸ List.mem_cons_self h t)
  have hTmem : topConceptOf K ∈ h :: t := by
    rw [← heq, mem_sort_close_by_one K]
    exact topConceptOf_isFormalConcept K
  rcases List.mem_cons.mp hTmem with hThead | hTtail
  · rw [← hThead]
    rfl
  · have hsorted := sort_concepts_sorted (close_by_one K)
    rw [heq, List.sorted_cons] at hsorted
    have hge : conceptSizeGE h (topConceptOf K) := hsorted.1 _ hTtail
    have hsub : h.extent_i ⊆ Finset.range K.nObjs :=
      concept_extent_subset_range K hmemh
    have hcard : (Finset.range K.nObjs).card ≤ h.extent_i.card := hge
    exact Finset.eq_of_subset_of_card_le hsub hcard

/-- The last element of the sorted concept list is the bottom concept. -/
lemma sorted_getLast_eq_bottom (hne : sort_concepts (close_by_one K) ≠ []) :
    (sort_concepts (close_by_one K)).getLast hne = bottomConceptOf K := by
  set cs := sort_concepts (close_by_one K) with hcs
  set lst := cs.getLast hne with hlst
  have hlstmem : lst ∈ cs := List.getLast_mem hne
  have hlstconcept : isFormalConcept K lst :=
    (mem_sort_close_by_one K).mp hlstmem
  have hBmem : bottomConceptOf K ∈ cs :=
    (mem_sort_close_by_one K).mpr (bottomConceptOf_isFormalConcept K)
  have hsplit : cs.dropLast ++ [lst] = cs := List.dropLast_append_getLast hne
  have hsorted : List.Pairwise conceptSizeGE cs := sort_concepts_sorted _
  rcases List.mem_append.mp (hsplit ▸ hBmem) with hdrop | hsingle
  · have hpw := hsplit ▸ hsorted
    rw [List.pairwise_append] at hpw
    have hge : conceptSizeGE (bottomConceptOf K) lst :=
      hpw.2.2 _ hdrop _ (List.mem_singleton_self lst)
    have hsub : (bottomConceptOf K).extent_i ⊆ lst.extent_i :=
      bottomConceptOf_extent_subset K hlstconcept
    have hext : (bottomConceptOf K).extent_i = lst.extent_i :=
      Finset.eq_of_subset_of_card_le hsub hge
    exact (concept_eq_of_extent_eq K hlstconcept
      (bottomConceptOf_isFormalConcept K) hext.symm)
  · exact (List.mem_singleton.mp hsingle).symm

lemma findIdx_congr_on {α : Type} (p q : α → Bool) :
    ∀ (l : List α), (∀ a ∈ l, p a = q a) → l.findIdx p = l.findIdx q := by
  intro l
  induction l with
  | nil => intro _; rfl
  | cons x xs ih =>
      intro h
      rw [List.findIdx_cons, List.findIdx_cons, h x (List.mem_cons_self x xs),
        ih (fun a ha => h a (List.mem_cons_of_mem x ha))]

lemma findIdx_eq_length_sub_one {α : Type} [DecidableEq α] :
    ∀ (l : List α) (b : α) (hne : l ≠ []), l.getLast hne = b → l.Nodup →
      l.findIdx (fun a => decide (a = b)) = l.length - 1 := by
  intro l
  induction l with
  | nil => intro b hne; exact absurd rfl hne
  | cons x xs ih =>
      intro b hne hlast hnd
      cases xs with
      | nil =>
          rw [List.getLast_singleton] at hlast
          rw [List.findIdx_cons, hlast]
          simp
      | cons y ys =>
          have hxsne : y :: ys ≠ [] := List.cons_ne_nil y ys
          have hlast' : (y :: ys).getLast hxsne = b := by
            rw [← hlast, List.getLast_cons hxsne]
          have hbmem : b ∈ y :: ys := hlast' ▸ List.getLast_mem hxsne
          have hxb : x ≠ b := fun hx =>
            (List.nodup_cons.mp hnd).1 (hx ▸ hbmem)
          rw [List.findIdx_cons]
          have : (decide (x = b)) = false := decide_eq_false hxb
          rw [this]
          simp only [cond_false]
          rw [ih b hxsne hlast' (List.nodup_cons.mp hnd).2]
          simp

/-- In every lattice built from a context the top concept sits at
index 0. -/
lemma from_context_top_eq_zero :
    (ConceptLattice.from_context K).top = 0 := by
  obtain ⟨h, t, heq⟩ :=
    List.exists_cons_of_ne_nil (sort_close_by_one_ne_nil K)
  have hconcepts : (ConceptLattice.from_context K).concepts = h :: t := heq
  unfold ConceptLattice.top
  rw [hconcepts, List.findIdx_cons]
  have hp : (decide (∀ d ∈ h :: t, d.extent_i ⊆ h.extent_i)) = true := by
    rw [decide_eq_true_eq]
    intro d hd
    have hdc : isFormalConcept K d :=
      (mem_sort_close_by_one K).mp (heq ▸ hd)
    rw [sorted_head_extent K heq]
    exact concept_extent_subset_range K hdc
  rw [hp]
  rfl

/-- In every lattice built from a context the bottom concept sits at the
last index. -/
lemma from_context_bottom_eq_last :
    (ConceptLattice.from_context K).bottom =
      (ConceptLattice.from_context K).concepts.length - 1 := by
  have hne : sort_concepts (close_by_one K) ≠ [] :=
    sort_close_by_one_ne_nil K
  have hnd : (sort_concepts (close_by_one K)).Nodup :=
    (sort_concepts_perm (close_by_one K)).nodup_iff.mpr (close_by_one_nodup K)
  have hlast : (sort_concepts (close_by_one K)).getLast hne =
      bottomConceptOf K := sorted_getLast_eq_bottom K hne
  have hconcepts : (ConceptLattice.from_context K).concepts =
      sort_concepts (close_by_one K) := rfl
  have hpq : ∀ c ∈ sort_concepts (close_by_one K),
      (fun c => decide (∀ d ∈ sort_concepts (close_by_one K),
        c.extent_i ⊆ d.extent_i)) c =
      (fun c => decide (c = bottomConceptOf K)) c := by
    intro c hc
    have hcc : isFormalConcept K c := (mem_sort_close_by_one K).mp hc
    simp only
    rw [decide_eq_decide]
    constructor
    · intro hall
      have h₁ : c.extent_i ⊆ (bottomConceptOf K).extent_i :=
        hall _ ((mem_sort_close_by_one K).mpr
          (bottomConceptOf_isFormalConcept K))
      have h₂ : (bottomConceptOf K).extent_i ⊆ c.extent_i :=
        bottomConceptOf_extent_subset K hcc
      exact concept_eq_of_extent_eq K hcc (bottomConceptOf_isFormalConcept K)
        (Finset.Subset.antisymm h₁ h₂)
    · rintro rfl d hd
      exact bottomConceptOf_extent_subset K ((mem_sort_close_by_one K).mp hd)
  unfold ConceptLattice.bottom
  rw [hconcepts,
    findIdx_congr_on (fun c => decide (∀ d ∈ sort_concepts (close_by_one K),
        c.extent_i ⊆ d.extent_i))
      (fun c => decide (c = bottomConceptOf K)) _ hpq,
    findIdx_eq_length_sub_one _ (bottomConceptOf K) hne hlast hnd]

end SortLemmas

/-- C3: for every list of pairwise-distinct concepts, the covering
relation produced by the lattice builder is exactly the transitive
reduction of the subsumption order: an edge never skips over an
intermediate concept, every strictly subsumed pair is connected by a path
of direct edges, `A` is a parent of `B` iff `B` is a child of `A` in the
transposed hierarchy, and the relation is acyclic. -/
theorem complete_comparison_transitive_reduction (cs : List FormalConcept)
    (_hd : (cs.map FormalConcept.extent_i).Nodup) :
    coveringIsTransitiveReduction cs := by
  refine ⟨fun i j h => covEdge_iff.mp h, ?_, ?_, ?_⟩
  · intro i j hi hj hij
    exact exists_cover_path cs (middles cs i j).card i j hi hj le_rfl hij
  · intro i j hi hj
    rw [transpose_hierarchy_getD cs j hj, List.mem_filter, List.mem_range,
      decide_eq_true_eq]
    exact ⟨fun h => ⟨hi, h⟩, fun h => h.2⟩
  · intro i h
    exact ssubset_irrefl _ (transGen_covEdge_ssubset h)

/-- Witness for C3: the five concepts mined from the animal-movement
context have pairwise-distinct extents, so their covering relation is the
transitive reduction of the subsumption order. -/
theorem complete_comparison_transitive_reduction_witness :
    ((close_by_one animalCtx).map FormalConcept.extent_i).Nodup ∧
      coveringIsTransitiveReduction (close_by_one animalCtx) :=
  ⟨by decide,
    complete_comparison_transitive_reduction (close_by_one animalCtx)
      (by decide)⟩

/-- C8: parallelism invariance — running the lattice builder's edge
construction with one worker and with `w ≥ 1` workers yields identical
covering-relation edge sets (compared as sets, independent of order). -/
theorem construct_lattice_edges_parallel_invariant
    (cs : List FormalConcept) (w : Nat) (hw : 1 ≤ w) :
    (construct_lattice_edges_parallel cs w).toFinset =
      (construct_lattice_edges_parallel cs 1).toFinset := by
  rw [construct_lattice_edges_parallel_eq cs w hw,
    construct_lattice_edges_parallel_eq cs 1 le_rfl]

/-- Witness for C8: on the concepts of the animal-movement context, three
workers produce the same edge set as one worker. -/
theorem construct_lattice_edges_parallel_invariant_witness :
    1 ≤ 3 ∧
      (construct_lattice_edges_parallel (close_by_one animalCtx) 3).toFinset =
        (construct_lattice_edges_parallel (close_by_one animalCtx) 1).toFinset :=
  ⟨by decide,
    construct_lattice_edges_parallel_invariant (close_by_one animalCtx) 3
      (by decide)⟩

/-- C5: the extension operator is antitone — for all attribute-index sets
`S₁` and `S₂` with `S₁ ⊆ S₂`, `extension_i K S₂ ⊆ extension_i K S₁`: a
larger attribute set never yields a larger extension. -/
theorem extension_i_antitone (K : FormalContext) (S₁ S₂ : Finset Nat)
    (h : S₁ ⊆ S₂) : extension_i K S₂ ⊆ extension_i K S₁ :=
  extension_i_antitone' K h

/-- Witness for C5: on the diagonal context, `{0} ⊆ {0, 1}` and the
extension of `{0, 1}` is contained in the extension of `{0}`. -/
theorem extension_i_antitone_witness :
    ({0} : Finset Nat) ⊆ {0, 1} ∧
      extension_i diagCtx {0, 1} ⊆ extension_i diagCtx {0} :=
  ⟨by decide, extension_i_antitone diagCtx {0} {0, 1} (by decide)⟩

/-- C6: the closure round trip is idempotent — for every attribute-index
set `S`, the set `intention_i (extension_i S)` is closed: applying the
round trip to it again returns the same set. -/
theorem intention_extension_idempotent (K : FormalContext) (S : Finset Nat) :
    intention_i K (extension_i K (intention_i K (extension_i K S))) =
      intention_i K (extension_i K S) :=
  intentClosure_intentClosure K S

/-- C7: no two concepts returned by Close-by-One share the same extent —
each closed set is visited and emitted exactly once. -/
theorem close_by_one_extents_nodup (K : FormalContext) :
    ((close_by_one K).map FormalConcept.extent_i).Nodup :=
  close_by_one_map_extent_nodup K

/-- C2: CbO completeness — for every formal context, the concepts
returned by Close-by-One are exactly the closed (extent, intent) pairs,
and their number equals the number of distinct closed extents obtained by
brute-force closure of every attribute subset. -/
theorem close_by_one_complete (K : FormalContext) :
    (∀ c, c ∈ close_by_one K ↔ isFormalConcept K c) ∧
      (close_by_one K).length = (bruteForceExtents K).card := by
  refine ⟨mem_close_by_one K, ?_⟩
  rw [close_by_one, List.length_map, cboIntents_length,
    card_bruteForceExtents]

/-- C9: out-of-range indices are rejected — for every attribute index
outside the valid range, `extension_i` raises an indexing error (modelled
by `none`) rather than returning a result, and symmetrically for
`intention_i` on object indices; the input is never silently fixed. -/
theorem checked_operators_reject_out_of_range (K : FormalContext) :
    (∀ S : Finset Nat, (∃ m ∈ S, K.nAttrs ≤ m) →
        extension_i_checked K S = none) ∧
      (∀ A : Finset Nat, (∃ g ∈ A, K.nObjs ≤ g) →
        intention_i_checked K A = none) := by
  constructor
  · rintro S ⟨m, hm, hge⟩
    rw [extension_i_checked, if_neg]
    intro hsub
    exact absurd (Finset.mem_range.mp (hsub hm)) (Nat.not_lt.mpr hge)
  · rintro A ⟨g, hg, hge⟩
    rw [intention_i_checked, if_neg]
    intro hsub
    exact absurd (Finset.mem_range.mp (hsub hg)) (Nat.not_lt.mpr hge)

/-- Witness for C9: on the diagonal context, the attribute set `{5}` and
the object set `{5}` hold an out-of-range index and both checked
operators reject them. -/
theorem checked_operators_reject_witness :
    (∃ m ∈ ({5} : Finset Nat), diagCtx.nAttrs ≤ m) ∧
      extension_i_checked diagCtx {5} = none ∧
      intention_i_checked diagCtx {5} = none :=
  ⟨by decide,
    (checked_operators_reject_out_of_range diagCtx).1 {5} (by decide),
    (checked_operators_reject_out_of_range diagCtx).2 {5} (by decide)⟩

/-- Counterexample for C4: in the divisibility poset on 1..20 the direct
super-elements of 4 are 8, 12 and 20 — not, as claimed, only 8 and 12:
20 is a cover of 4 because no multiple of 4 lies strictly between them
(8 does not divide 20). -/
theorem divisPoset_direct_supers_counterexample :
    20 ∈ (divisPoset.direct_super_elements (divisPoset.index 4)).map
        divisPoset.el ∧
      ((divisPoset.direct_super_elements (divisPoset.index 4)).map
        divisPoset.el).toFinset ≠ ({8, 12} : Finset Nat) := by
  decide

/-- C4 (amended): in the divisibility poset on 1..20,
`super_elements(4)` equals `{4, 8, 12, 16, 20}` both before and after
forcing a cache fill, and `direct_super_elements(4)` equals
`{8, 12, 20}`. -/
theorem divisPoset_super_elements_4 :
    ((divisPoset.super_elements (divisPoset.index 4)).map
        divisPoset.el).toFinset = ({4, 8, 12, 16, 20} : Finset Nat) ∧
      ((divisPoset.fill_up_superelements_cache.super_elements
          (divisPoset.fill_up_superelements_cache.index 4)).map
        divisPoset.fill_up_superelements_cache.el).toFinset =
        ({4, 8, 12, 16, 20} : Finset Nat) ∧
      ((divisPoset.direct_super_elements (divisPoset.index 4)).map
        divisPoset.el).toFinset = ({8, 12, 20} : Finset Nat) := by
  decide

/-- Counterexample for C1: mining the concrete 5-object, 4-attribute
animal-movement context with Close-by-One and building the lattice
yields 5 concepts, not 8. -/
theorem animal_lattice_not_eight_concepts :
    (ConceptLattice.from_context animalCtx).concepts.length = 5 ∧
      (ConceptLattice.from_context animalCtx).concepts.length ≠ 8 := by
  decide

/-- Counterexample for C10: the animal-movement lattice built from the
5-object context has its bottom concept at index 4, not 7. -/
theorem animal_lattice_bottom_not_seven :
    (ConceptLattice.from_context animalCtx).bottom = 4 ∧
      (ConceptLattice.from_context animalCtx).bottom ≠ 7 := by
  decide

/-- C10 (amended): when a ConceptLattice is built from a context, the
concepts are ordered so that the top (most general) concept receives
index 0 and the bottom (most specific) concept receives the last index;
in particular, for the 5-concept animal-movement lattice, `L.top` is 0
and `L.bottom` is 4. -/
theorem from_context_top_bottom_indices :
    (∀ K : FormalContext,
        (ConceptLattice.from_context K).top = 0 ∧
          (ConceptLattice.from_context K).bottom =
            (ConceptLattice.from_context K).concepts.length - 1) ∧
      (ConceptLattice.from_context animalCtx).top = 0 ∧
      (ConceptLattice.from_context animalCtx).bottom = 4 :=
  ⟨fun K => ⟨from_context_top_eq_zero K, from_context_bottom_eq_last K⟩,
    by decide, by decide⟩

/-- C1 (amended): mining the concrete 5-object, 4-attribute
animal-movement context via CbO and building the lattice yields exactly
5 concepts, with a unique top concept whose extent is all 5 objects and
whose intent is the empty attribute set, and a unique bottom concept
whose extent is empty. -/
theorem animal_lattice_concepts :
    (ConceptLattice.from_context animalCtx).concepts.length = 5 ∧
      ((ConceptLattice.from_context animalCtx).concepts.filter
        (fun c => decide (c.extent_i = Finset.range 5 ∧
          c.intent_i = (∅ : Finset Nat)))).length = 1 ∧
      ((ConceptLattice.from_context animalCtx).concepts.filter
        (fun c => decide (c.extent_i = (∅ : Finset Nat)))).length = 1 := by
  decide

end FCApy
